import Mathlib

/-!
Verification development for the lemonmind-frontend repository.

The repository is a React/TypeScript single-page application over the Supabase
SDK.  The parts of the code the claims are about are shallowly embedded below:

* `src/context/AuthContext.tsx` — the session-lifecycle wrapper (`getSession`,
  `refreshSession`, `handleAuthStateChange`, `initializeAuth`);
* `src/components/ProtectedRoute.tsx` — the render guard;
* `src/pages/Categories.tsx` — `buildCategoryTree`;
* `src/pages/EditCategory.tsx` — `fetchData`, `validParentCategories`,
  `handleSubmit`, `handleDelete`;
* `src/lib/supabase/utils.ts` — the `useTable` CRUD hook and `generateSlug`;
* `src/lib/utils/index.ts` — `debounce` and `throttle`;
* `supabase/migrations/20240628090200_add_gpsr_fields_to_products.sql` and
  `src/types/product.ts` — the GPSR metadata model.

Asynchronous SDK calls are modelled by environments recording the response of
each call; JavaScript truthiness on values of type `number`/`string | null`
is modelled explicitly (`0`, `""` and `null` are falsy).
-/

namespace LemonMind

/-! ## Auth session model (`src/context/AuthContext.tsx`) -/

/-- An auth error thrown by a Supabase SDK call (shape irrelevant; only
identity matters). -/
structure AuthErr where
  code : Nat
deriving DecidableEq

/-- The fields of a Supabase `Session` that `AuthContext.tsx` reads:
`expires_at` (seconds since epoch, optional in the SDK type) and `user`
(modelled by the user id; `Session.user` is always present on a session). -/
structure SessionT where
  expires_at : Option Int
  user : String
deriving DecidableEq

/-- Responses of the Supabase SDK calls that one run of `getSession` can make,
plus the current wall-clock time `now` (milliseconds, the value of
`Date.now()`).  `.error e` models `{ data, error }` with `error` non-null,
`.ok s` models a successful call whose `data.session` is `s`. -/
structure AuthEnv where
  getSessionResult : Except AuthErr (Option SessionT)
  refreshResult : Except AuthErr (Option SessionT)
  now : Int

/-- `data.session` of an SDK result when the error was thrown and caught into
`null`: exactly how `getSession`'s `catch` collapses an error. -/
def exceptSession : Except AuthErr (Option SessionT) → Option SessionT
  | .ok s => s
  | .error _ => none

/-- Embedding of `getSession` (AuthContext.tsx lines 43–70).  With
`forceRefresh` it calls `supabase.auth.refreshSession()`; otherwise it calls
`supabase.auth.getSession()` and, when the obtained session has a truthy
`expires_at` (present and nonzero) with
`expires_at * 1000 < Date.now() + refreshTokenThreshold * 1000`, refreshes.
Every thrown error is caught and becomes a `null` session. -/
def getSession (refreshTokenThreshold : Int) (env : AuthEnv)
    (forceRefresh : Bool) : Option SessionT :=
  let attempt : Except AuthErr (Option SessionT) :=
    if forceRefresh then
      env.refreshResult
    else
      match env.getSessionResult with
      | .error e => .error e
      | .ok none => .ok none
      | .ok (some s) =>
        match s.expires_at with
        | some e =>
          if e ≠ 0 ∧ e * 1000 < env.now + refreshTokenThreshold * 1000 then
            env.refreshResult
          else
            .ok (some s)
        | none => .ok (some s)
  exceptSession attempt

/-- The record returned by the context's `refreshSession` (AuthContext.tsx
lines 347–367): `{ error, user, session }` (the `data` field always mirrors
`session`). -/
structure AuthResponseS where
  error : Option AuthErr
  user : Option String
  session : Option SessionT
deriving DecidableEq

/-- Embedding of `refreshSession` (AuthContext.tsx lines 347–367): it calls
`getSession(true)` through `getSessionRef` and wraps the resulting session;
`getSession` never throws (it catches internally), so the `catch` branch of
`refreshSession` is unreachable once the ref is set. -/
def refreshSession (refreshTokenThreshold : Int) (env : AuthEnv) :
    AuthResponseS :=
  let s := getSession refreshTokenThreshold env true
  { error := none, user := s.map (fun x => x.user), session := s }

/-! ## Auth state changes and redirect policy
(`src/context/AuthContext.tsx`, `src/components/ProtectedRoute.tsx`) -/

/-- `a.startsWith(b)` on character lists: `listStarts pre l` is true when
`pre` is an initial segment of `l`. -/
def listStarts : List Char → List Char → Bool
  | [], _ => true
  | _ :: _, [] => false
  | a :: as, b :: bs => a == b && listStarts as bs

/-- JavaScript `s.startsWith(pre)`. -/
def strStarts (s pre : String) : Bool :=
  listStarts pre.data s.data

/-- `listHas n l` is true when `n` occurs contiguously inside `l`. -/
def listHas (n : List Char) : List Char → Bool
  | [] => listStarts n []
  | c :: t => listStarts n (c :: t) || listHas n t

/-- JavaScript `s.includes(sub)`. -/
def strHas (s sub : String) : Bool :=
  listHas sub.data s.data

/-- The `AuthProvider` props that govern the redirect policy.  `App.tsx`
mounts `AuthProvider` with no explicit props, so the defaults apply. -/
structure AuthCfg where
  requireAuth : Bool
  loginPath : String
  homePath : String

/-- The default `AuthProvider` configuration (`requireAuth = true`,
`loginPath = '/login'`, `homePath = '/'`), which is what `App.tsx` uses. -/
def defaultAuthCfg : AuthCfg :=
  { requireAuth := true, loginPath := "/login", homePath := "/" }

/-- The parts of `window.location` the auth code reads. -/
structure Location where
  pathname : String
  search : String

/-- Auth state-change events dispatched by the SDK; `otherEvent` stands for
any event string the handler does not match. -/
inductive AuthEvent where
  | signedIn
  | tokenRefreshed
  | userUpdated
  | signedOut
  | otherEvent
deriving DecidableEq

/-- Embedding of `handleAuthStateChange` (AuthContext.tsx lines 83–107).
Returns the new `user` state and the navigation it performs (if any).
Note the JS code checks `window.location.pathname` for both the
`=== loginPath` and the `.startsWith('/signup')` conditions. -/
def handleAuthStateChange (cfg : AuthCfg) (loc : Location) (event : AuthEvent)
    (session : Option SessionT) (prevUser : Option String) :
    Option String × Option String :=
  match event with
  | .signedIn | .tokenRefreshed | .userUpdated =>
    (session.map (fun s => s.user),
      if loc.pathname = cfg.loginPath
          ∧ strStarts loc.pathname "/signup" = false
          ∧ strHas loc.search "from=signup" = false then
        some cfg.homePath
      else
        none)
  | .signedOut =>
    (none,
      if cfg.requireAuth = true
          ∧ loc.pathname ≠ cfg.loginPath
          ∧ strStarts loc.pathname "/signup" = false then
        some cfg.loginPath
      else
        none)
  | .otherEvent => (prevUser, none)

/-- Embedding of `initializeAuth` (AuthContext.tsx lines 110–139): on mount
the provider obtains a session, stores its user, and redirects to `loginPath`
when there is no session, auth is required and the current path is neither
`loginPath` nor under `/signup`.  Returns the new `user` state and the
navigation performed. -/
def initializeAuth (cfg : AuthCfg) (loc : Location)
    (session : Option SessionT) : Option String × Option String :=
  (session.map (fun s => s.user),
    if session = none
        ∧ cfg.requireAuth = true
        ∧ loc.pathname ≠ cfg.loginPath
        ∧ strStarts loc.pathname "/signup" = false then
      some cfg.loginPath
    else
      none)

/-- What a render of `ProtectedRoute` produces. -/
inductive RouteView where
  | spinner
  | redirectTo (path : String)
  | content
deriving DecidableEq

/-- Embedding of `ProtectedRoute` (ProtectedRoute.tsx lines 8–25): a loading
spinner while auth state loads, a `<Navigate to="/login">` when there is no
user, and the protected children otherwise.  (While `loading` is true the
surrounding `AuthProvider` renders no children at all, so a mounted
`ProtectedRoute` always sees `loading = false`.) -/
def protectedRoute (loading : Bool) (user : Option String) : RouteView :=
  if loading then
    .spinner
  else
    match user with
    | none => .redirectTo "/login"
    | some _ => .content

/-! ## The `useTable` CRUD hook (`src/lib/supabase/utils.ts` lines 26–150)

A table row is modelled with the two columns every query of the hook touches
(`id`, `user_id`) plus an opaque payload.  A PostgREST query is modelled by
the list of `.eq` filters it carries, and each operation returns an
`OpTrace` recording whether the backend was contacted at all, which filters
the issued query used, and the value produced. -/

/-- The authenticated user as seen by `useUser()` / `supabase.auth.getUser()`. -/
structure UserT where
  id : String
deriving DecidableEq

/-- A row of a user-scoped table. -/
structure TableRow where
  id : String
  user_id : String
  payload : Nat
deriving DecidableEq

/-- An `.eq(column, value)` filter on the columns the hook filters by. -/
inductive DbFilter where
  | eqId (v : String)
  | eqUserId (v : String)
deriving DecidableEq

/-- PostgREST semantics of one `.eq` filter. -/
def rowMatches (r : TableRow) : DbFilter → Bool
  | .eqId v => r.id == v
  | .eqUserId v => r.user_id == v

/-- PostgREST semantics of a filtered `select`: the rows matching every
filter. -/
def runFilters (fs : List DbFilter) (db : List TableRow) : List TableRow :=
  db.filter (fun r => fs.all (rowMatches r))

/-- The trace of one hook operation: whether any request reached the backend,
the `.eq` filters of that request, and the value the operation returned. -/
structure OpTrace (α : Type) where
  contactedBackend : Bool
  filtersUsed : List DbFilter
  result : α
deriving DecidableEq

/-- Embedding of `useTable(...).fetchAll` (utils.ts lines 26–47): `null`
without a request when no user; otherwise `select * .eq('user_id', user.id)`. -/
def fetchAll (user : Option UserT) (db : List TableRow) :
    OpTrace (Option (List TableRow)) :=
  match user with
  | none => { contactedBackend := false, filtersUsed := [], result := none }
  | some u =>
    let fs := [DbFilter.eqUserId u.id]
    { contactedBackend := true, filtersUsed := fs,
      result := some (runFilters fs db) }

/-- Embedding of `useTable(...).fetchById` (utils.ts lines 50–73):
`select * .eq('id', id).eq('user_id', user.id).single()`; `.single()` throws
(caught into `null`) unless exactly one row matches. -/
def fetchById (user : Option UserT) (db : List TableRow) (i : String) :
    OpTrace (Option TableRow) :=
  match user with
  | none => { contactedBackend := false, filtersUsed := [], result := none }
  | some u =>
    let fs := [DbFilter.eqId i, DbFilter.eqUserId u.id]
    { contactedBackend := true, filtersUsed := fs,
      result :=
        match runFilters fs db with
        | [r] => some r
        | _ => none }

/-- Embedding of `useTable(...).insert` (utils.ts lines 76–98): inserts
`{ ...values, user_id: user.id }` — the spread is overridden, so the stored
row's `user_id` is always the authenticated user's id.  Returns the trace
and the new table contents. -/
def insertRow (user : Option UserT) (db : List TableRow) (values : TableRow) :
    OpTrace (Option TableRow) × List TableRow :=
  match user with
  | none =>
    ({ contactedBackend := false, filtersUsed := [], result := none }, db)
  | some u =>
    let newRow := { values with user_id := u.id }
    ({ contactedBackend := true, filtersUsed := [], result := some newRow },
      db ++ [newRow])

/-- Embedding of `useTable(...).update` (utils.ts lines 101–125):
`update(values).eq('id', id).eq('user_id', user.id).select().single()`.
`values` is modelled by the new payload. -/
def updateRow (user : Option UserT) (db : List TableRow) (i : String)
    (newPayload : Nat) : OpTrace (Option TableRow) × List TableRow :=
  match user with
  | none =>
    ({ contactedBackend := false, filtersUsed := [], result := none }, db)
  | some u =>
    let fs := [DbFilter.eqId i, DbFilter.eqUserId u.id]
    let db2 := db.map (fun r =>
      if fs.all (rowMatches r) then { r with payload := newPayload } else r)
    ({ contactedBackend := true, filtersUsed := fs,
       result :=
         match runFilters fs db2 with
         | [r] => some r
         | _ => none }, db2)

/-- Embedding of `useTable(...).remove` (utils.ts lines 128–150):
`delete().eq('id', id).eq('user_id', user.id)`, returning `false` without a
request when no user and `true` on success. -/
def removeRow (user : Option UserT) (db : List TableRow) (i : String) :
    OpTrace Bool × List TableRow :=
  match user with
  | none =>
    ({ contactedBackend := false, filtersUsed := [], result := false }, db)
  | some u =>
    let fs := [DbFilter.eqId i, DbFilter.eqUserId u.id]
    ({ contactedBackend := true, filtersUsed := fs, result := true },
      db.filter (fun r => !(fs.all (rowMatches r))))

/-! ## Scheduling utilities (`src/lib/utils/index.ts` lines 242–271)

`debounce` and `throttle` are author-written wrappers around
`setTimeout`/`clearTimeout`.  Their timer state is embedded explicitly:
time is a `Nat` (milliseconds), a pending `setTimeout` is recorded with its
fire time, and the runtime firing a timer is a separate step. -/

/-- The closure state of `debounce(func, wait)`: the pending timeout (fire
time and the latest arguments), if any. -/
structure DebounceState (α : Type) where
  pending : Option (Nat × α)
deriving DecidableEq

/-- Calling the debounced function at time `t` with argument `a`: any pending
timeout is cleared and a new one is scheduled `wait` milliseconds later. -/
def debounceCall (wait t : Nat) (a : α) (_s : DebounceState α) :
    DebounceState α :=
  { pending := some (t + wait, a) }

/-- The runtime firing timers at time `t`: when the pending timeout is due,
`func` is invoked with the stored arguments (returned in the second
component). -/
def debounceFire (t : Nat) (s : DebounceState α) :
    DebounceState α × Option α :=
  match s.pending with
  | some (tf, a) => if tf = t then ({ pending := none }, some a) else (s, none)
  | none => (s, none)

/-- The closure state of `throttle(func, limit)`: the `inThrottle` flag and
the time at which the scheduled `setTimeout` will clear it. -/
structure ThrottleState where
  inThrottle : Bool
  resetAt : Option Nat
deriving DecidableEq

/-- Calling the throttled function at time `t`: outside the throttle window
`func` runs immediately (second component `true`) and a reset is scheduled
`limit` milliseconds later; inside the window the call is dropped. -/
def throttleCall (limit t : Nat) (s : ThrottleState) : ThrottleState × Bool :=
  if s.inThrottle then
    (s, false)
  else
    ({ inThrottle := true, resetAt := some (t + limit) }, true)

/-- The runtime firing the throttle's reset timeout at time `t`. -/
def throttleReset (t : Nat) (s : ThrottleState) : ThrottleState :=
  match s.resetAt with
  | some tr =>
    if tr = t then { inThrottle := false, resetAt := none } else s
  | none => s

/-! ## GPSR compliance metadata
(`supabase/migrations/20240628090200_add_gpsr_fields_to_products.sql`,
`src/types/product.ts`) -/

/-- The moderation statuses of the client-side `Product` type
(`'pending' | 'approved' | 'rejected'`). -/
inductive GpsrModerationStatus where
  | pending
  | approved
  | rejected
deriving DecidableEq

/-- The value set of the SQL `CHECK` constraint on
`products.gpsr_moderation_status`. -/
def gpsrStatusAllowed : List String := ["pending", "approved", "rejected"]

/-- Column semantics of `gpsr_moderation_status TEXT NOT NULL DEFAULT
'pending' CHECK (gpsr_moderation_status IN ('pending','approved','rejected'))`
for an insert.  The argument is the inserted value: `none` when the column is
omitted (the default applies), `some none` for an explicit SQL `NULL`
(rejected by `NOT NULL`), `some (some s)` for an explicit string (subject to
the `CHECK`).  The result is the stored value, or `none` when the insert is
rejected. -/
def insertGpsrModerationStatus : Option (Option String) → Option String
  | none => some "pending"
  | some none => none
  | some (some s) => if s ∈ gpsrStatusAllowed then some s else none

/-- Embedding of the client-side `Product` interface (`src/types/product.ts`),
with the GPSR fields; optional fields are `Option`s. -/
structure Product where
  id : String
  name : String
  description : String
  price : Int
  category_id : Option String
  user_id : String
  status : String
  gpsr_category : Option String
  gpsr_compliance : Option Bool
  gpsr_notes : Option String
  moderation_status : Option GpsrModerationStatus
  moderation_notes : Option String

/-! ## Categories (`src/pages/Categories.tsx`, `src/pages/EditCategory.tsx`)

A category carries the columns the category pages read.  `parent_id` is
`string | null`; JavaScript truthiness makes both `null` and `""` falsy, which
`truthyParent` captures. -/

/-- A row of the `categories` table as the pages use it. -/
structure Category where
  id : String
  name : String
  parent_id : Option String
  user_id : String
deriving DecidableEq

/-- The parent reference as JavaScript truthiness sees it: `null` and the
empty string are both "no parent" (`if (category.parent_id && ...)`). -/
def truthyParent (c : Category) : Option String :=
  match c.parent_id with
  | some p => if p = "" then none else some p
  | none => none

/-- `map.has(p)` of `buildCategoryTree`'s first pass: the map's keys are
exactly the ids of the input list. -/
def hasId (cats : List Category) (p : String) : Bool :=
  cats.any (fun d => d.id == p)

/-- The attachment condition of `buildCategoryTree`'s second pass
(Categories.tsx line 72): `category.parent_id && map.has(category.parent_id)`. -/
def isChildB (cats : List Category) (c : Category) : Bool :=
  match truthyParent c with
  | some p => hasId cats p
  | none => false

/-- The `result` array of `buildCategoryTree` (Categories.tsx lines 61–84):
the categories pushed to the top level, in input order (a JS `Map` iterates
in insertion order). -/
def rootsOf (cats : List Category) : List Category :=
  cats.filter (fun c => !(isChildB cats c))

/-- The `children` array that `buildCategoryTree` leaves on the node with id
`i`: all input categories with truthy `parent_id = i` (their parent lookup
`map.get(parent_id)` succeeds exactly when some input id equals `parent_id`),
in input order. -/
def childrenOf (cats : List Category) (i : String) : List Category :=
  cats.filter (fun c => truthyParent c == some i)

/-- One step up the parent_id graph: the map entry the category is attached
under (`map.get(parent_id)` resolved against the input list; `find?` matches
the JS map built from the same list when ids are distinct). -/
def up (cats : List Category) (c : Category) : Option Category :=
  match truthyParent c with
  | some p => cats.find? (fun d => d.id == p)
  | none => none

/-- Iterated parent steps. -/
def upIter (cats : List Category) : Nat → Category → Option Category
  | 0, c => some c
  | k + 1, c =>
    match up cats c with
    | some d => upIter cats k d
    | none => none

/-- The input ids are pairwise distinct. -/
def idsNodup (cats : List Category) : Prop :=
  (cats.map (fun c => c.id)).Nodup

/-- The parent_id references are acyclic: no nonempty chain of parent steps
returns to its start. -/
def AcyclicParents (cats : List Category) : Prop :=
  ∀ d ∈ cats, ∀ k : Nat, upIter cats (k + 1) d ≠ some d

/-- Boolean cycle test (used to exhibit concrete cycles): some category
reaches itself by 1 to `cats.length` parent steps. -/
def hasCycleB (cats : List Category) : Bool :=
  cats.any (fun d =>
    (List.range cats.length).any (fun k => upIter cats (k + 1) d == some d))

/-- The depth-first traversal of the tree `buildCategoryTree` hangs under a
node, cut off below `fuel` levels: the node itself followed by the traversals
of its children.  (`buildCategoryTree` builds this tree by mutating the map
entries; on acyclic input every subtree is reached within `cats.length`
levels, so the cutoff is never hit where it matters.) -/
def flattenNode (cats : List Category) : Nat → Category → List Category
  | 0, c => [c]
  | fuel + 1, c =>
    c :: (childrenOf cats c.id).flatMap (flattenNode cats fuel)

/-- The depth-first traversal of the whole forest returned by
`buildCategoryTree`: the traversal of every root, with `cats.length` as a
depth bound sufficient for acyclic inputs. -/
def forestTraversal (cats : List Category) : List Category :=
  (rootsOf cats).flatMap (flattenNode cats cats.length)

/-! ## EditCategory (`src/pages/EditCategory.tsx`) -/

/-- Embedding of the client-side filter computing the parent dropdown
(EditCategory.tsx lines 80–85): from the already-fetched list it keeps
categories that are neither the edited category nor one of its direct
children.  (The code's own comment calls this "a simplified check".) -/
def validParentCategories (allCategories : List Category)
    (categoryData : Category) : List Category :=
  allCategories.filter (fun cat =>
    cat.id ≠ categoryData.id ∧ cat.parent_id ≠ some categoryData.id)

/-- Outcome of `EditCategory`'s `fetchData`. -/
inductive FetchOutcome where
  | redirectLogin
  | errorMsg (msg : String)
  | loaded (categoryData : Category) (parentChoices : List Category)
deriving DecidableEq

/-- Embedding of `fetchData` (EditCategory.tsx lines 32–94): redirect to
`/login` without a user; fetch the category by id (`.single()`); reject it
when its `user_id` differs from the current user's; otherwise fetch the
user's other categories and filter them with `validParentCategories`. -/
def editCategoryFetchData (user : Option UserT) (db : List Category)
    (i : String) : FetchOutcome :=
  match user with
  | none => .redirectLogin
  | some u =>
    match db.filter (fun c => c.id == i) with
    | [categoryData] =>
      if categoryData.user_id ≠ u.id then
        .errorMsg "You do not have permission to edit this category"
      else
        let allCategories :=
          db.filter (fun c => c.user_id == u.id && c.id != i)
        .loaded categoryData (validParentCategories allCategories categoryData)
    | _ => .errorMsg "Category not found"

/-- Embedding of the update issued by `handleSubmit` (EditCategory.tsx lines
109–145) on the stored categories: `parent_id` becomes the selected value, or
`null` when the selection is empty (`formData.parent_id || null`); the update
is keyed on `id` alone. -/
def handleSubmit (i : String) (formParent : String) (db : List Category) :
    List Category :=
  db.map (fun c =>
    if c.id == i then
      { c with parent_id := if formParent = "" then none else some formParent }
    else c)

/-- A row of the `products` table as `handleDelete`'s count query sees it. -/
structure ProductRow where
  id : String
  category_id : Option String
deriving DecidableEq

/-- The stored state `handleDelete` reads and writes. -/
structure CatStore where
  products : List ProductRow
  categories : List Category
deriving DecidableEq

/-- The exact count returned by
`select('*', { count: 'exact', head: true }).eq('category_id', id)`. -/
def productCount (st : CatStore) (i : String) : Nat :=
  (st.products.filter (fun p => p.category_id == some i)).length

/-- The exact count returned by
`select('*', { count: 'exact', head: true }).eq('parent_id', id)`. -/
def subcategoryCount (st : CatStore) (i : String) : Nat :=
  (st.categories.filter (fun c => c.parent_id == some i)).length

/-- Outcome of `EditCategory`'s `handleDelete`. -/
inductive DeleteOutcome where
  | cancelled
  | errorMsg (msg : String)
  | deletedAndNavigated
deriving DecidableEq

/-- Embedding of `handleDelete` (EditCategory.tsx lines 147–193): nothing
happens unless the user confirms; a positive product count or a positive
subcategory count raises an error before any delete is issued (the truthiness
guard `count && count > 0` is `count ≠ 0 ∧ count > 0` on a number); only with
both counts zero is the delete issued and the user navigated back.  Returns
the new store and the outcome. -/
def handleDelete (confirmed : Bool) (i : String) (st : CatStore) :
    CatStore × DeleteOutcome :=
  if !confirmed then
    (st, .cancelled)
  else
    let pc := productCount st i
    if pc ≠ 0 ∧ pc > 0 then
      (st, .errorMsg "Cannot delete category with associated products")
    else
      let sc := subcategoryCount st i
      if sc ≠ 0 ∧ sc > 0 then
        (st, .errorMsg "Cannot delete category with subcategories")
      else
        ({ st with categories := st.categories.filter (fun c => c.id != i) },
          .deletedAndNavigated)

/-! ## `generateSlug` (`src/lib/supabase/utils.ts` lines 488–495)

JavaScript strings are modelled as lists of code points (`Nat`); the
relevant code points are `45 = '-'`, `48–57 = '0'–'9'`, `65–90 = 'A'–'Z'`,
`95 = '_'`, `97–122 = 'a'–'z'`.  The pipeline is
`toLowerCase → trim → replace(/[^\w\s-]/g,'') → replace(/[\s_-]+/g,'-') →
replace(/^-+|-+$/g,'')`. -/

/-- `String.prototype.toLowerCase` on one code point (the `A–Z → a–z` case
mapping; code points outside `A–Z` that JS would also lower are not word
characters afterwards and are dropped by the following filter either way). -/
def jsToLower (n : Nat) : Nat :=
  if 65 ≤ n ∧ n ≤ 90 then n + 32 else n

/-- The regex class `\w` = `[A-Za-z0-9_]`. -/
def jsIsWord (n : Nat) : Bool :=
  decide ((65 ≤ n ∧ n ≤ 90) ∨ (97 ≤ n ∧ n ≤ 122) ∨ (48 ≤ n ∧ n ≤ 57) ∨ n = 95)

/-- The regex class `\s` (the whitespace code points; `trim` removes the same
set). -/
def jsIsSpace (n : Nat) : Bool :=
  decide (n = 32 ∨ n = 9 ∨ n = 10 ∨ n = 13 ∨ n = 11 ∨ n = 12 ∨ n = 160
    ∨ n = 65279)

/-- The class `[\s_-]` of the run-collapsing replacement. -/
def sepChar (n : Nat) : Bool :=
  jsIsSpace n || n == 95 || n == 45

/-- The class `[\w\s-]` of code points kept by `replace(/[^\w\s-]/g, '')`. -/
def keepChar (n : Nat) : Bool :=
  jsIsWord n || jsIsSpace n || n == 45

/-- `String.prototype.trim`: drop leading and trailing whitespace. -/
def trimChars (l : List Nat) : List Nat :=
  ((l.dropWhile jsIsSpace).reverse.dropWhile jsIsSpace).reverse

/-- `replace(/[\s_-]+/g, '-')`: every maximal run of separator code points
becomes a single `45` (`'-'`).  Structurally: a separator emits `45`, merging
with an adjacent collapsed run on its right (any `45` in the collapsed tail
is itself a collapsed separator run, since `45` is a separator). -/
def collapseSeps : List Nat → List Nat
  | [] => []
  | c :: cs =>
    let rest := collapseSeps cs
    if sepChar c then
      match rest with
      | d :: ds => if d = 45 then 45 :: ds else 45 :: rest
      | [] => [45]
    else
      c :: rest

/-- `replace(/^-+|-+$/g, '')`: drop one leading and one trailing run of
`45`s. -/
def stripDashes (l : List Nat) : List Nat :=
  ((l.dropWhile (fun n => n == 45)).reverse.dropWhile (fun n => n == 45)).reverse

/-- Embedding of `generateSlug` (utils.ts lines 488–495) on code-point
lists. -/
def generateSlug (l : List Nat) : List Nat :=
  stripDashes (collapseSeps ((trimChars (l.map jsToLower)).filter keepChar))

/-- A code point the slug output may contain: a lowercase letter, a digit, or
a hyphen. -/
def slugOutChar (n : Nat) : Prop :=
  (97 ≤ n ∧ n ≤ 122) ∨ (48 ≤ n ∧ n ≤ 57) ∨ n = 45

instance (n : Nat) : Decidable (slugOutChar n) := by
  unfold slugOutChar; infer_instance

/-- The output shape of `generateSlug`: only lowercase word characters and
hyphens, no two adjacent hyphens, and no leading or trailing hyphen. -/
def SlugShape (l : List Nat) : Prop :=
  (∀ n ∈ l, slugOutChar n) ∧
  l.Chain' (fun a b => ¬(a = 45 ∧ b = 45)) ∧
  (∀ n ∈ l.head?, n ≠ 45) ∧
  (∀ n ∈ l.getLast?, n ≠ 45)

/-! ## Concrete example values used by witnesses and counterexamples -/

/-- An environment whose stored session has `expires_at = 0` (truthiness
corner case) and whose refresh would return a distinct session. -/
def cexAuthEnv : AuthEnv :=
  { getSessionResult := .ok (some { expires_at := some 0, user := "u" }),
    refreshResult := .ok (some { expires_at := some 7, user := "u" }),
    now := 0 }

/-- An environment whose stored session expires within the refresh
threshold. -/
def witAuthEnv : AuthEnv :=
  { getSessionResult := .ok (some { expires_at := some 100, user := "u" }),
    refreshResult := .ok (some { expires_at := some 99999, user := "u" }),
    now := 0 }

/-- An environment in which the SDK refresh call fails. -/
def errAuthEnv : AuthEnv :=
  { getSessionResult := .error { code := 1 },
    refreshResult := .error { code := 1 },
    now := 0 }

/-- A category whose id is the empty string. -/
def cexRootA : Category := { id := "", name := "A", parent_id := none, user_id := "u" }

/-- A category whose `parent_id` is the empty string — it matches
`cexRootA`'s id, but is falsy in JavaScript. -/
def cexRootB : Category := { id := "b", name := "B", parent_id := some "", user_id := "u" }

/-- Root of a three-category chain `catA ← catB ← catC`. -/
def catA : Category := { id := "a", name := "A", parent_id := none, user_id := "u1" }

/-- Middle of the chain: child of `catA`. -/
def catB : Category := { id := "b", name := "B", parent_id := some "a", user_id := "u1" }

/-- Bottom of the chain: grandchild of `catA`. -/
def catC : Category := { id := "c", name := "C", parent_id := some "b", user_id := "u1" }

/-- A store with one product attached to category `"a"`. -/
def witStore : CatStore :=
  { products := [{ id := "p1", category_id := some "a" }],
    categories := [catA, catB, catC] }

/-! # Theorems -/

/-- Claim C1, counterexample.  The claim states that whenever the obtained
session's `expires_at * 1000` is below `Date.now() + threshold * 1000`,
`getSession` refreshes and returns the refreshed session.  With
`expires_at = 0` the claim's condition holds (`0 < 0 + 300 * 1000`), but the
JavaScript guard `session?.expires_at && ...` is falsy at `0`, so the code
returns the obtained session unchanged instead of the (distinct) refreshed
session. -/
theorem C1_counterexample :
    ((0 : Int) * 1000 < 0 + 300 * 1000) ∧
    getSession 300 cexAuthEnv false =
      some { expires_at := some 0, user := "u" } ∧
    exceptSession cexAuthEnv.refreshResult =
      some { expires_at := some 7, user := "u" } ∧
    some ({ expires_at := some 0, user := "u" } : SessionT) ≠
      some ({ expires_at := some 7, user := "u" } : SessionT) := by
  refine ⟨by decide, by decide, by decide, by decide⟩

/-- Claim C1 (amended: the proactive refresh fires only when `expires_at` is
present *and nonzero* — JavaScript truthiness — and below the threshold).
For every call of `getSession`: with `forceRefresh` it returns exactly what
the SDK refresh produced; without it, an SDK error or absent session yields
`null`; an obtained session with a truthy `expires_at` below
`now + threshold * 1000` is replaced by the refreshed session; otherwise the
obtained session is returned unchanged; and every SDK error becomes `null`
rather than propagating. -/
theorem C1_getSession_refresh_policy (thr : Int) (env : AuthEnv) :
    (getSession thr env true = exceptSession env.refreshResult) ∧
    (∀ e : AuthErr, env.getSessionResult = .error e →
      getSession thr env false = none) ∧
    (env.getSessionResult = .ok none → getSession thr env false = none) ∧
    (∀ s : SessionT, env.getSessionResult = .ok (some s) →
      ((∀ e : Int, s.expires_at = some e → e ≠ 0 →
          e * 1000 < env.now + thr * 1000 →
          getSession thr env false = exceptSession env.refreshResult) ∧
       (s.expires_at = none → getSession thr env false = some s) ∧
       (∀ e : Int, s.expires_at = some e →
          (e = 0 ∨ ¬ e * 1000 < env.now + thr * 1000) →
          getSession thr env false = some s))) := by
  refine ⟨by simp [getSession], ?_, ?_, ?_⟩
  · intro e h
    simp [getSession, h, exceptSession]
  · intro h
    simp [getSession, h, exceptSession]
  · intro s hs
    refine ⟨?_, ?_, ?_⟩
    · intro e he hne hlt
      simp only [getSession, hs, he, Bool.false_eq_true, if_false]
      rw [if_pos ⟨hne, hlt⟩]
    · intro he
      simp [getSession, hs, he, exceptSession]
    · intro e he hor
      simp only [getSession, hs, he, Bool.false_eq_true, if_false]
      rw [if_neg]
      · rfl
      · rcases hor with h0 | hge
        · exact fun hc => hc.1 h0
        · exact fun hc => hge hc.2

/-- Witness for `C1_getSession_refresh_policy`: in `witAuthEnv` the session
expires at second 100 with `now = 0` and threshold 300, so the refreshed
session is returned. -/
theorem C1_witness :
    getSession 300 witAuthEnv false =
      some { expires_at := some 99999, user := "u" } := by
  have h := (C1_getSession_refresh_policy 300 witAuthEnv).2.2.2
    { expires_at := some 100, user := "u" } rfl
  exact h.1 100 rfl (by decide) (by decide)

/-- Claim C8: `refreshSession` always reports `error = null`, because
`getSession` converts every SDK error into a `null` session; in particular a
failed refresh yields `{ error: null, user: null, session: null }`,
indistinguishable (by `error`) from a successfully absent session. -/
theorem C8_refreshSession_error_always_null (thr : Int) (env : AuthEnv) :
    (refreshSession thr env).error = none ∧
    (∀ e : AuthErr, env.refreshResult = .error e →
      refreshSession thr env =
        { error := none, user := none, session := none }) := by
  constructor
  · rfl
  · intro e h
    simp [refreshSession, getSession, h, exceptSession]

/-- Witness for `C8_refreshSession_error_always_null`: with a failing SDK
refresh, the result is `{ error: null, user: null, session: null }`. -/
theorem C8_witness :
    refreshSession 300 errAuthEnv =
      { error := none, user := none, session := none } :=
  (C8_refreshSession_error_always_null 300 errAuthEnv).2 { code := 1 } rfl

/-- Claim C6, counterexample.  The claim says the codebase contains no
author-written scheduling of deferred work; but `debounce`
(`src/lib/utils/index.ts` lines 242–253) is author-written code that, on a
call at time 0 with `wait = 100`, schedules the wrapped function via
`setTimeout` and the function then runs at the strictly later time 100. -/
theorem C6_counterexample :
    (debounceCall 100 0 (42 : Nat) { pending := none }).pending =
      some (100, 42) ∧
    (0 : Nat) < 100 ∧
    (debounceFire 100 (debounceCall 100 0 (42 : Nat) { pending := none })).2 =
      some 42 := by
  refine ⟨rfl, by decide, rfl⟩

/-- Claim C6 (amended: the hard operations — auth token refresh, queries,
storage — are pure delegations to the SDK, and in particular `getSession`
never fabricates a session, returning `null` or exactly what an SDK call
produced; but the codebase does contain author-written scheduling of
deferred and rate-limited work: `debounce` schedules the wrapped function
`wait` ms after the latest call, and `throttle` suppresses calls for
`limit` ms via a scheduled reset). -/
theorem C6_delegation_and_scheduling :
    (∀ (thr : Int) (env : AuthEnv) (force : Bool),
      getSession thr env force = none ∨
      getSession thr env force = exceptSession env.refreshResult ∨
      getSession thr env force = exceptSession env.getSessionResult) ∧
    (∀ (wait t a : Nat) (s : DebounceState Nat),
      (debounceCall wait t a s).pending = some (t + wait, a)) ∧
    (∀ t a : Nat,
      debounceFire t { pending := some (t, a) } =
        ({ pending := none }, some a)) ∧
    (∀ limit t : Nat,
      throttleCall limit t { inThrottle := false, resetAt := none } =
        ({ inThrottle := true, resetAt := some (t + limit) }, true)) ∧
    (∀ (limit t : Nat) (s : ThrottleState), s.inThrottle = true →
      throttleCall limit t s = (s, false)) := by
  refine ⟨?_, fun _ _ _ _ => rfl, fun t a => by simp [debounceFire],
    fun _ _ => rfl, fun limit t s h => by simp [throttleCall, h]⟩
  intro thr env force
  cases force with
  | true => right; left; simp [getSession]
  | false =>
    cases hg : env.getSessionResult with
    | error e => left; simp [getSession, hg, exceptSession]
    | ok s =>
      cases s with
      | none => right; right; simp [getSession, hg, exceptSession]
      | some sess =>
        cases he : sess.expires_at with
        | none => right; right; simp [getSession, hg, he, exceptSession]
        | some e =>
          by_cases hc : e ≠ 0 ∧ e * 1000 < env.now + thr * 1000
          · right; left
            simp only [getSession, hg, he, Bool.false_eq_true, if_false]
            rw [if_pos hc]
          · right; right
            simp only [getSession, hg, he, Bool.false_eq_true, if_false,
              exceptSession]
            rw [if_neg hc]

/-- Witness for `C6_delegation_and_scheduling`: a throttled call inside the
throttle window is dropped. -/
theorem C6_witness :
    throttleCall 5 0 { inThrottle := true, resetAt := some 3 } =
      ({ inThrottle := true, resetAt := some 3 }, false) :=
  C6_delegation_and_scheduling.2.2.2.2 5 0
    { inThrottle := true, resetAt := some 3 } rfl

/-- Claim C3: redirect policy.  `ProtectedRoute` renders protected content
only when a user is present and redirects to `/login` otherwise (in any
non-loading render; while loading, `AuthProvider` renders nothing); on
initialization with no session, and on `SIGNED_OUT`, with `requireAuth` and a
current path that is neither `loginPath` nor under `/signup`, the app
navigates to `loginPath`; and on `SIGNED_IN` / `TOKEN_REFRESHED` /
`USER_UPDATED` while on the login page of the default configuration (and not
arriving from signup) it navigates to the home path. -/
theorem C3_redirect_policy :
    (∀ (loading : Bool) (user : Option String),
      protectedRoute loading user = .content → user ≠ none) ∧
    (protectedRoute false none = .redirectTo "/login") ∧
    (∀ u : String, protectedRoute false (some u) = .content) ∧
    (∀ (cfg : AuthCfg) (loc : Location),
      cfg.requireAuth = true → loc.pathname ≠ cfg.loginPath →
      strStarts loc.pathname "/signup" = false →
      initializeAuth cfg loc none = (none, some cfg.loginPath)) ∧
    (∀ (cfg : AuthCfg) (loc : Location) (sess : Option SessionT)
        (u : Option String),
      cfg.requireAuth = true → loc.pathname ≠ cfg.loginPath →
      strStarts loc.pathname "/signup" = false →
      handleAuthStateChange cfg loc .signedOut sess u =
        (none, some cfg.loginPath)) ∧
    (∀ (loc : Location) (sess : Option SessionT) (u : Option String)
        (ev : AuthEvent),
      (ev = .signedIn ∨ ev = .tokenRefreshed ∨ ev = .userUpdated) →
      loc.pathname = "/login" → strHas loc.search "from=signup" = false →
      (handleAuthStateChange defaultAuthCfg loc ev sess u).2 = some "/") := by
  refine ⟨?_, rfl, fun u => rfl, ?_, ?_, ?_⟩
  · intro loading user h
    cases loading with
    | true => simp [protectedRoute] at h
    | false =>
      cases user with
      | none => simp [protectedRoute] at h
      | some u => exact fun hc => by simp at hc
  · intro cfg loc hreq hne hsu
    simp [initializeAuth, hreq, hne, hsu]
  · intro cfg loc sess u hreq hne hsu
    simp [handleAuthStateChange, hreq, hne, hsu]
  · intro loc sess u ev hev hpath hsearch
    have hstart : strStarts "/login" "/signup" = false := by decide
    rcases hev with h | h | h <;>
      · subst h
        simp [handleAuthStateChange, defaultAuthCfg, hpath, hsearch, hstart]

/-- Witness for `C3_redirect_policy`: a `SIGNED_OUT` event on `/dashboard`
under the default configuration navigates to `/login`. -/
theorem C3_witness :
    handleAuthStateChange defaultAuthCfg
      { pathname := "/dashboard", search := "" } .signedOut none none =
      (none, some "/login") :=
  C3_redirect_policy.2.2.2.2.1 defaultAuthCfg
    { pathname := "/dashboard", search := "" } none none rfl (by decide)
    (by decide)

/-- Claim C4: per-user row scoping of the `useTable` hook.  Without an
authenticated user every operation returns `null` (`false` for `remove`)
without contacting the backend; with a user, `fetchAll`/`fetchById` only
produce rows whose `user_id` is the user's id, `insert` stamps the stored
row's `user_id` with the user's id, `update` leaves every row of another
user unchanged, `remove` deletes only rows of the current user, and
`EditCategory.fetchData` only loads a category owned by the current user. -/
theorem C4_user_scoping :
    (∀ db, fetchAll (none : Option UserT) db =
      { contactedBackend := false, filtersUsed := [], result := none }) ∧
    (∀ db i, fetchById (none : Option UserT) db i =
      { contactedBackend := false, filtersUsed := [], result := none }) ∧
    (∀ db v, insertRow (none : Option UserT) db v =
      ({ contactedBackend := false, filtersUsed := [], result := none }, db)) ∧
    (∀ db i p, updateRow (none : Option UserT) db i p =
      ({ contactedBackend := false, filtersUsed := [], result := none }, db)) ∧
    (∀ db i, removeRow (none : Option UserT) db i =
      ({ contactedBackend := false, filtersUsed := [], result := false }, db)) ∧
    (∀ (u : UserT) (db : List TableRow) (rs : List TableRow),
      (fetchAll (some u) db).result = some rs →
      ∀ r ∈ rs, r.user_id = u.id) ∧
    (∀ (u : UserT) (db : List TableRow) (i : String) (r : TableRow),
      (fetchById (some u) db i).result = some r →
      r.user_id = u.id ∧ r.id = i) ∧
    (∀ (u : UserT) (db : List TableRow) (v : TableRow),
      (insertRow (some u) db v).1.result = some { v with user_id := u.id } ∧
      (insertRow (some u) db v).2 = db ++ [{ v with user_id := u.id }]) ∧
    (∀ (u : UserT) (db : List TableRow) (i : String) (p : Nat),
      List.Forall₂ (fun old new => old = new ∨ old.user_id = u.id)
        db (updateRow (some u) db i p).2) ∧
    (∀ (u : UserT) (db : List TableRow) (i : String) (r : TableRow),
      r ∈ db → r ∉ (removeRow (some u) db i).2 →
      r.user_id = u.id ∧ r.id = i) ∧
    (∀ (u : UserT) (db : List Category) (i : String) (cd : Category)
        (ps : List Category),
      editCategoryFetchData (some u) db i = .loaded cd ps →
      cd.user_id = u.id) := by
  refine ⟨fun _ => rfl, fun _ _ => rfl, fun _ _ => rfl, fun _ _ _ => rfl,
    fun _ _ => rfl, ?_, ?_, fun u db v => ⟨rfl, rfl⟩, ?_, ?_, ?_⟩
  · intro u db rs h r hr
    simp only [fetchAll, runFilters, Option.some.injEq] at h
    subst h
    simp only [List.mem_filter, List.all_cons, List.all_nil, rowMatches,
      Bool.and_true, beq_iff_eq] at hr
    exact hr.2
  · intro u db i r h
    simp only [fetchById] at h
    cases hm : runFilters [DbFilter.eqId i, DbFilter.eqUserId u.id] db with
    | nil => rw [hm] at h; exact absurd h (by simp)
    | cons a t =>
      cases t with
      | nil =>
        rw [hm] at h
        simp only [Option.some.injEq] at h
        have ha : a ∈ runFilters [DbFilter.eqId i, DbFilter.eqUserId u.id] db := by
          rw [hm]; exact List.mem_singleton_self a
        simp only [runFilters, List.mem_filter, List.all_cons, List.all_nil,
          rowMatches, Bool.and_true, Bool.and_eq_true, beq_iff_eq] at ha
        rw [← h]
        exact ⟨ha.2.2, ha.2.1⟩
      | cons b t2 => rw [hm] at h; exact absurd h (by simp)
  · intro u db i p
    simp only [updateRow]
    rw [List.forall₂_map_right_iff]
    rw [List.forall₂_same]
    intro r _
    by_cases hr : ([DbFilter.eqId i, DbFilter.eqUserId u.id].all (rowMatches r)) = true
    · right
      simp only [List.all_cons, List.all_nil, rowMatches, Bool.and_true,
        Bool.and_eq_true, beq_iff_eq] at hr
      exact hr.2
    · left
      rw [if_neg hr]
  · intro u db i r hmem hnot
    by_cases hr : ([DbFilter.eqId i, DbFilter.eqUserId u.id].all (rowMatches r)) = true
    · simp only [List.all_cons, List.all_nil, rowMatches, Bool.and_true,
        Bool.and_eq_true, beq_iff_eq] at hr
      exact ⟨hr.2, hr.1⟩
    · exfalso
      apply hnot
      simp only [removeRow, List.mem_filter]
      exact ⟨hmem, by simp [hr]⟩
  · intro u db i cd ps h
    simp only [editCategoryFetchData] at h
    split at h
    · split at h
      · exact absurd h (by simp)
      · rename_i hcond
        simp only [FetchOutcome.loaded.injEq] at h
        rw [← h.1]
        exact Decidable.not_not.mp hcond
    · exact absurd h (by simp)

/-- Witness for `C4_user_scoping`: fetching all rows as user `u1` over a
two-user table returns only `u1`'s row, whose `user_id` is `u1`. -/
theorem C4_witness :
    ({ id := "r1", user_id := "u1", payload := 0 } : TableRow).user_id
      = "u1" :=
  C4_user_scoping.2.2.2.2.2.1 { id := "u1" }
    [{ id := "r1", user_id := "u1", payload := 0 },
     { id := "r2", user_id := "u2", payload := 0 }]
    [{ id := "r1", user_id := "u1", payload := 0 }]
    (by decide) { id := "r1", user_id := "u1", payload := 0 }
    (List.mem_singleton_self _)

/-- Claim C7: GPSR metadata.  Every stored `gpsr_moderation_status` is one of
`'pending'`, `'approved'`, `'rejected'`; omitting the column stores the
default `'pending'`; an explicit SQL `NULL` is rejected (`NOT NULL`); and the
client-side `Product` type's `moderation_status`, when present, is one of the
same three values. -/
theorem C7_gpsr_metadata :
    (∀ (v : Option (Option String)) (r : String),
      insertGpsrModerationStatus v = some r → r ∈ gpsrStatusAllowed) ∧
    (insertGpsrModerationStatus none = some "pending") ∧
    (insertGpsrModerationStatus (some none) = none) ∧
    (∀ m : GpsrModerationStatus,
      m = .pending ∨ m = .approved ∨ m = .rejected) ∧
    (∀ (p : Product) (m : GpsrModerationStatus),
      p.moderation_status = some m →
      m = .pending ∨ m = .approved ∨ m = .rejected) := by
  refine ⟨?_, rfl, rfl, ?_, ?_⟩
  · intro v r h
    match v with
    | none =>
      simp only [insertGpsrModerationStatus, Option.some.injEq] at h
      rw [← h]; decide
    | some none => exact absurd h (by simp [insertGpsrModerationStatus])
    | some (some s) =>
      simp only [insertGpsrModerationStatus] at h
      by_cases hs : s ∈ gpsrStatusAllowed
      · rw [if_pos hs] at h
        simp only [Option.some.injEq] at h
        rw [← h]; exact hs
      · rw [if_neg hs] at h
        exact absurd h (by simp)
  · intro m; cases m
    · exact Or.inl rfl
    · exact Or.inr (Or.inl rfl)
    · exact Or.inr (Or.inr rfl)
  · intro p m _
    cases m
    · exact Or.inl rfl
    · exact Or.inr (Or.inl rfl)
    · exact Or.inr (Or.inr rfl)

/-- Witness for `C7_gpsr_metadata`: inserting `'approved'` stores a value in
the allowed set. -/
theorem C7_witness : "approved" ∈ gpsrStatusAllowed :=
  C7_gpsr_metadata.1 (some (some "approved")) "approved" (by decide)

/-- Claim C9: `handleDelete` deletes only childless, productless categories.
A positive product count raises an error and issues no delete (store
unchanged); with zero products, a positive subcategory count does the same;
only with both counts zero is the delete issued and the navigation back
performed. -/
theorem C9_delete_guard (i : String) (st : CatStore) :
    (productCount st i > 0 →
      handleDelete true i st =
        (st, .errorMsg "Cannot delete category with associated products")) ∧
    (productCount st i = 0 → subcategoryCount st i > 0 →
      handleDelete true i st =
        (st, .errorMsg "Cannot delete category with subcategories")) ∧
    (productCount st i = 0 → subcategoryCount st i = 0 →
      handleDelete true i st =
        ({ st with categories := st.categories.filter (fun c => c.id != i) },
          .deletedAndNavigated)) ∧
    (handleDelete false i st = (st, .cancelled)) := by
  refine ⟨?_, ?_, ?_, rfl⟩
  · intro hp
    simp only [handleDelete, Bool.not_true, Bool.false_eq_true, if_false]
    rw [if_pos ⟨Nat.pos_iff_ne_zero.mp hp, hp⟩]
  · intro hp hs
    simp only [handleDelete, Bool.not_true, Bool.false_eq_true, if_false]
    rw [if_neg (fun hc => hc.1 hp),
      if_pos ⟨Nat.pos_iff_ne_zero.mp hs, hs⟩]
  · intro hp hs
    simp only [handleDelete, Bool.not_true, Bool.false_eq_true, if_false]
    rw [if_neg (fun hc => hc.1 hp), if_neg (fun hc => hc.1 hs)]

/-- Witness for `C9_delete_guard`: deleting category `"a"` of `witStore`
(one attached product) errors out and leaves the store unchanged. -/
theorem C9_witness :
    handleDelete true "a" witStore =
      (witStore, .errorMsg "Cannot delete category with associated products") :=
  (C9_delete_guard "a" witStore).1 (by decide)

/-- Claim C5, counterexample.  The claim says the selectable parents exclude
the edited category and *all* of its descendants, so no edit can create a
cycle.  In the chain `catA ← catB ← catC`, editing `catA` offers `catC` — a
grandchild — as a parent choice, and submitting it produces a `parent_id`
graph with a cycle where there was none. -/
theorem C5_counterexample :
    editCategoryFetchData (some { id := "u1" }) [catA, catB, catC] "a" =
      .loaded catA [catC] ∧
    upIter [catA, catB, catC] 2 catC = some catA ∧
    hasCycleB [catA, catB, catC] = false ∧
    hasCycleB (handleSubmit "a" "c" [catA, catB, catC]) = true := by
  refine ⟨by decide, by decide, by decide, by decide⟩

/-- Claim C5 (amended: the selectable parent set excludes exactly the edited
category itself and its *direct* children — the code's own comment calls this
"a simplified check" — so deeper descendants remain selectable and an edit
can still introduce a cycle, as the counterexample shows). -/
theorem C5_direct_children_only (allCategories : List Category)
    (categoryData cat : Category) :
    cat ∈ validParentCategories allCategories categoryData ↔
      cat ∈ allCategories ∧ cat.id ≠ categoryData.id ∧
        cat.parent_id ≠ some categoryData.id := by
  simp [validParentCategories, List.mem_filter, and_assoc]

/-- Witness for `C5_direct_children_only`: `catC` (a grandchild of `catA`) is
in the selectable set when editing `catA`. -/
theorem C5_witness :
    catC ∈ validParentCategories [catB, catC] catA :=
  (C5_direct_children_only [catB, catC] catA catC).mpr
    ⟨by decide, by decide, by decide⟩

/-! ### Parent-graph lemmas for `buildCategoryTree` -/

theorem up_mem {cats : List Category} {c d : Category} (h : up cats c = some d) :
    d ∈ cats := by
  unfold up at h
  cases hp : truthyParent c with
  | none => rw [hp] at h; exact absurd h (by simp)
  | some p => rw [hp] at h; exact List.mem_of_find?_eq_some h

theorem up_id {cats : List Category} {c d : Category}
    (h : up cats c = some d) : truthyParent c = some d.id := by
  unfold up at h
  cases hp : truthyParent c with
  | none => rw [hp] at h; exact absurd h (by simp)
  | some p =>
    rw [hp] at h
    have hpred := List.find?_some h
    simp only [beq_iff_eq] at hpred
    rw [hpred]

theorem find?_id_self {cats : List Category} (hn : idsNodup cats)
    {c : Category} (hc : c ∈ cats) :
    cats.find? (fun d => d.id == c.id) = some c := by
  induction cats with
  | nil => cases hc
  | cons a t ih =>
    rw [idsNodup, List.map_cons, List.nodup_cons] at hn
    by_cases ha : (a.id == c.id) = true
    · rw [List.find?_cons_of_pos t ha]
      rcases List.mem_cons.mp hc with h | h
      · rw [h]
      · exfalso
        have hmem : c.id ∈ t.map (fun x => x.id) :=
          List.mem_map_of_mem (fun x => x.id) h
        rw [← beq_iff_eq.mp ha] at hmem
        exact hn.1 hmem
    · rw [List.find?_cons_of_neg t ha]
      rcases List.mem_cons.mp hc with h | h
      · exact absurd (by rw [h]; exact beq_self_eq_true a.id) ha
      · exact ih hn.2 h

theorem up_eq_some_iff {cats : List Category} (hn : idsNodup cats)
    {c : Category} (hc : c ∈ cats) (x : Category) :
    up cats x = some c ↔ truthyParent x = some c.id := by
  constructor
  · exact up_id
  · intro h
    unfold up
    rw [h]
    exact find?_id_self hn hc

theorem upIter_add (cats : List Category) (a b : Nat) (x : Category) :
    upIter cats (a + b) x =
      (upIter cats a x).bind (fun y => upIter cats b y) := by
  induction a generalizing x with
  | zero => simp [upIter]
  | succ n ih =>
    rw [Nat.succ_add]
    cases hu : up cats x with
    | none => simp [upIter, hu]
    | some d => simp [upIter, hu, ih]

theorem upIter_one (cats : List Category) (x : Category) :
    upIter cats 1 x = up cats x := by
  cases hu : up cats x <;> simp [upIter, hu]

theorem upIter_succ_r (cats : List Category) (k : Nat) (x : Category) :
    upIter cats (k + 1) x =
      (upIter cats k x).bind (fun y => up cats y) := by
  rw [upIter_add cats k 1 x]
  cases upIter cats k x <;> simp [upIter_one]

theorem upIter_mem {cats : List Category} {k : Nat} {x d : Category}
    (h : upIter cats (k + 1) x = some d) : d ∈ cats := by
  rw [upIter_succ_r] at h
  cases hu : upIter cats k x with
  | none => rw [hu] at h; exact absurd h (by simp)
  | some y =>
    rw [hu] at h
    exact up_mem h

theorem upIter_none_add {cats : List Category} {k : Nat} {x : Category}
    (h : upIter cats k x = none) (j : Nat) :
    upIter cats (k + j) x = none := by
  rw [upIter_add cats k j x, h]
  rfl

theorem upIter_none_of_le {cats : List Category} {k m : Nat} {x : Category}
    (h : upIter cats k x = none) (hle : k ≤ m) :
    upIter cats m x = none := by
  rcases Nat.exists_eq_add_of_le hle with ⟨j, rfl⟩
  exact upIter_none_add h j

theorem childrenOf_mem {cats : List Category} {i : String} {d : Category} :
    d ∈ childrenOf cats i ↔ d ∈ cats ∧ truthyParent d = some i := by
  simp [childrenOf, List.mem_filter]

theorem isChildB_eq_false_iff {cats : List Category} {c : Category} :
    isChildB cats c = false ↔ up cats c = none := by
  unfold isChildB up
  cases truthyParent c with
  | none => simp
  | some p =>
    simp only [List.find?_eq_none, hasId]
    simp [List.any_eq_true]

theorem rootsOf_mem {cats : List Category} {c : Category} :
    c ∈ rootsOf cats ↔ c ∈ cats ∧ up cats c = none := by
  simp only [rootsOf, List.mem_filter, Bool.not_eq_eq_eq_not, Bool.not_true]
  exact and_congr_right fun _ => isChildB_eq_false_iff

theorem cats_nodup {cats : List Category} (hn : idsNodup cats) :
    cats.Nodup := by
  unfold idsNodup at hn
  exact List.Nodup.of_map (fun c => c.id) hn

/-! ### Counting occurrences in the forest traversal -/

theorem sum_map_add_distrib {α : Type} (l : List α) (f g : α → Nat) :
    (l.map (fun e => f e + g e)).sum = (l.map f).sum + (l.map g).sum := by
  induction l with
  | nil => rfl
  | cons a t ih =>
    simp only [List.map_cons, List.sum_cons, ih]
    omega

theorem sum_map_range_comm {α : Type} (l : List α) (n : Nat)
    (g : α → Nat → Nat) :
    (l.map (fun e => ∑ k ∈ Finset.range n, g e k)).sum =
      ∑ k ∈ Finset.range n, (l.map (fun e => g e k)).sum := by
  induction l with
  | nil => simp
  | cons a t ih =>
    simp only [List.map_cons, List.sum_cons, ih, Finset.sum_add_distrib]

theorem sum_map_indicator {α : Type} [DecidableEq α] {l : List α}
    (hnd : l.Nodup) (f : Option α) :
    (l.map (fun e => if f = some e then 1 else 0)).sum =
      if ∃ e ∈ l, f = some e then 1 else 0 := by
  induction l with
  | nil => simp
  | cons a t ih =>
    rw [List.nodup_cons] at hnd
    simp only [List.map_cons, List.sum_cons]
    by_cases ha : f = some a
    · rw [if_pos ha, if_pos ⟨a, List.mem_cons_self a t, ha⟩]
      have ht : (t.map (fun e => if f = some e then 1 else 0)).sum = 0 := by
        apply List.sum_eq_zero
        intro y hy
        rcases List.mem_map.mp hy with ⟨e, he, rfl⟩
        rw [if_neg]
        intro hfe
        rw [ha, Option.some.injEq] at hfe
        exact hnd.1 (hfe ▸ he)
      rw [ht]
    · rw [if_neg ha, ih hnd.2, Nat.zero_add]
      apply if_congr _ rfl rfl
      constructor
      · rintro ⟨e, he, hfe⟩
        exact ⟨e, List.mem_cons_of_mem a he, hfe⟩
      · rintro ⟨e, he, hfe⟩
        rcases List.mem_cons.mp he with rfl | he2
        · exact absurd hfe ha
        · exact ⟨e, he2, hfe⟩

theorem sum_map_mem_indicator {α : Type} [DecidableEq α] {l : List α}
    (hnd : l.Nodup) (x : α) :
    (l.map (fun e => if x = e then 1 else 0)).sum =
      if x ∈ l then 1 else 0 := by
  induction l with
  | nil => simp
  | cons a t ih =>
    rw [List.nodup_cons] at hnd
    simp only [List.map_cons, List.sum_cons]
    by_cases ha : x = a
    · rw [if_pos ha, if_pos (ha ▸ List.mem_cons_self a t)]
      have ht : (t.map (fun e => if x = e then 1 else 0)).sum = 0 := by
        apply List.sum_eq_zero
        intro y hy
        rcases List.mem_map.mp hy with ⟨e, he, rfl⟩
        rw [if_neg]
        intro hxe
        rw [ha] at hxe
        exact hnd.1 (hxe ▸ he)
      rw [ht]
    · rw [if_neg ha, ih hnd.2, Nat.zero_add]
      apply if_congr _ rfl rfl
      rw [List.mem_cons]
      constructor
      · exact Or.inr
      · rintro (rfl | h)
        · exact absurd rfl ha
        · exact h

theorem childrenOf_nodup {cats : List Category} (hn : idsNodup cats)
    (i : String) : (childrenOf cats i).Nodup :=
  List.Nodup.filter _ (cats_nodup hn)

theorem rootsOf_nodup {cats : List Category} (hn : idsNodup cats) :
    (rootsOf cats).Nodup :=
  List.Nodup.filter _ (cats_nodup hn)

/-- Occurrence count of `x` in the depth-`fuel` traversal of the subtree at
`c`: one for `x = c`, plus one for every chain length `1 ≤ k ≤ fuel` of
parent steps leading from `x` up to `c`. -/
theorem count_flattenNode {cats : List Category} (hn : idsNodup cats)
    (fuel : Nat) :
    ∀ c ∈ cats, ∀ x : Category,
    (flattenNode cats fuel c).count x =
      (if x = c then 1 else 0) +
      ∑ k ∈ Finset.range fuel,
        (if x ∈ cats ∧ upIter cats (k + 1) x = some c then 1 else 0) := by
  induction fuel with
  | zero =>
    intro c _ x
    simp only [flattenNode, Finset.range_zero, Finset.sum_empty, Nat.add_zero]
    rw [List.count_cons, List.count_nil, Nat.zero_add]
    by_cases h : x = c
    · rw [if_pos h, if_pos (by rw [h]; exact beq_self_eq_true c)]
    · rw [if_neg h, if_neg (fun hb => h (beq_iff_eq.mp hb).symm)]
  | succ fuel ih =>
    intro c hc x
    show (c :: (childrenOf cats c.id).flatMap (flattenNode cats fuel)).count x
      = _
    rw [List.count_cons, List.count_flatMap]
    have hmap : (childrenOf cats c.id).map
          (List.count x ∘ flattenNode cats fuel)
        = (childrenOf cats c.id).map (fun e =>
            (if x = e then 1 else 0) +
            ∑ k ∈ Finset.range fuel,
              (if x ∈ cats ∧ upIter cats (k + 1) x = some e then 1 else 0)) := by
      apply List.map_congr_left
      intro e he
      exact ih e (childrenOf_mem.mp he).1 x
    rw [hmap, sum_map_add_distrib, sum_map_range_comm]
    have hA : ((childrenOf cats c.id).map (fun e => if x = e then 1 else 0)).sum
        = if x ∈ cats ∧ upIter cats 1 x = some c then 1 else 0 := by
      rw [sum_map_mem_indicator (childrenOf_nodup hn c.id) x]
      apply if_congr _ rfl rfl
      rw [childrenOf_mem, upIter_one]
      exact and_congr_right fun hx => (up_eq_some_iff hn hc x).symm
    have hB : ∀ k : Nat,
        ((childrenOf cats c.id).map (fun e =>
          if x ∈ cats ∧ upIter cats (k + 1) x = some e then 1 else 0)).sum
        = if x ∈ cats ∧ upIter cats (k + 2) x = some c then 1 else 0 := by
      intro k
      by_cases hx : x ∈ cats
      · simp only [hx, true_and]
        have hconv : ((childrenOf cats c.id).map (fun e =>
            if upIter cats (k + 1) x = some e then 1 else 0)).sum
            = if ∃ e ∈ childrenOf cats c.id, upIter cats (k + 1) x = some e
              then 1 else 0 :=
          sum_map_indicator (childrenOf_nodup hn c.id) _
        rw [hconv]
        apply if_congr _ rfl rfl
        constructor
        · rintro ⟨e, he, hfe⟩
          have h1 := childrenOf_mem.mp he
          have hup : up cats e = some c := (up_eq_some_iff hn hc e).mpr h1.2
          rw [show k + 2 = (k + 1) + 1 from rfl, upIter_succ_r, hfe]
          exact hup
        · intro h2
          rw [show k + 2 = (k + 1) + 1 from rfl, upIter_succ_r] at h2
          cases hu : upIter cats (k + 1) x with
          | none => rw [hu] at h2; exact absurd h2 (by simp)
          | some e =>
            rw [hu] at h2
            have h3 : up cats e = some c := h2
            exact ⟨e, childrenOf_mem.mpr ⟨upIter_mem hu, up_id h3⟩, rfl⟩
      · simp only [hx, false_and, if_false]
        apply List.sum_eq_zero
        intro y hy
        rcases List.mem_map.mp hy with ⟨e, _, rfl⟩
        rfl
    have hBsum : ∑ k ∈ Finset.range fuel,
        ((childrenOf cats c.id).map (fun e =>
          if x ∈ cats ∧ upIter cats (k + 1) x = some e then 1 else 0)).sum
        = ∑ k ∈ Finset.range fuel,
            (if x ∈ cats ∧ upIter cats (k + 2) x = some c then 1 else 0) :=
      Finset.sum_congr rfl fun k _ => hB k
    rw [hA, hBsum, Finset.sum_range_succ']
    have hcx : (if (c == x) = true then 1 else 0) = if x = c then (1 : Nat) else 0 := by
      by_cases h : x = c
      · rw [if_pos h, if_pos (by rw [h]; exact beq_self_eq_true c)]
      · rw [if_neg h, if_neg (fun hb => h (beq_iff_eq.mp hb).symm)]
    rw [hcx]
    have hnorm : ∑ k ∈ Finset.range fuel,
        (if x ∈ cats ∧ upIter cats (k + 1 + 1) x = some c then 1 else 0)
        = ∑ k ∈ Finset.range fuel,
            (if x ∈ cats ∧ upIter cats (k + 2) x = some c then 1 else 0) := rfl
    rw [hnorm]
    simp only [Nat.zero_add]
    omega

/-- Occurrence count of `x ∈ cats` in the whole forest traversal: one for
`x` being a root, plus one for every chain length `k + 1` of parent steps
from `x` that ends exactly at a root. -/
theorem count_forestTraversal {cats : List Category} (hn : idsNodup cats)
    {x : Category} (hx : x ∈ cats) :
    (forestTraversal cats).count x =
      (if up cats x = none then 1 else 0) +
      ∑ k ∈ Finset.range cats.length,
        (if upIter cats (k + 1) x ≠ none ∧ upIter cats (k + 2) x = none
          then 1 else 0) := by
  unfold forestTraversal
  rw [List.count_flatMap]
  have hmap : (rootsOf cats).map (List.count x ∘ flattenNode cats cats.length)
      = (rootsOf cats).map (fun c =>
          (if x = c then 1 else 0) +
          ∑ k ∈ Finset.range cats.length,
            (if x ∈ cats ∧ upIter cats (k + 1) x = some c then 1 else 0)) := by
    apply List.map_congr_left
    intro c hcr
    exact count_flattenNode hn cats.length c (rootsOf_mem.mp hcr).1 x
  rw [hmap, sum_map_add_distrib, sum_map_range_comm]
  have h1 : ((rootsOf cats).map (fun c => if x = c then 1 else 0)).sum
      = if up cats x = none then 1 else 0 := by
    rw [sum_map_mem_indicator (rootsOf_nodup hn) x]
    apply if_congr _ rfl rfl
    rw [rootsOf_mem]
    exact ⟨fun h => h.2, fun h => ⟨hx, h⟩⟩
  have h2 : ∀ k : Nat, ((rootsOf cats).map (fun c =>
        if x ∈ cats ∧ upIter cats (k + 1) x = some c then 1 else 0)).sum
      = if upIter cats (k + 1) x ≠ none ∧ upIter cats (k + 2) x = none
        then 1 else 0 := by
    intro k
    simp only [hx, true_and]
    rw [sum_map_indicator (rootsOf_nodup hn) _]
    apply if_congr _ rfl rfl
    constructor
    · rintro ⟨c, hcr, hfe⟩
      have hroot := rootsOf_mem.mp hcr
      refine ⟨by rw [hfe]; exact fun h => Option.noConfusion h, ?_⟩
      rw [show k + 2 = (k + 1) + 1 from rfl, upIter_succ_r, hfe]
      exact hroot.2
    · rintro ⟨hne, h0⟩
      cases hu : upIter cats (k + 1) x with
      | none => exact absurd hu hne
      | some c =>
        refine ⟨c, ?_, rfl⟩
        rw [show k + 2 = (k + 1) + 1 from rfl, upIter_succ_r, hu] at h0
        exact rootsOf_mem.mpr ⟨upIter_mem hu, h0⟩
  rw [h1, Finset.sum_congr rfl (fun k _ => h2 k)]

/-- On a finite list with distinct ids and acyclic parent references, every
chain of parent steps terminates within `cats.length` steps (pigeonhole). -/
theorem upIter_terminates {cats : List Category}
    (hac : AcyclicParents cats) {x : Category} (hx : x ∈ cats) :
    ∃ k, k ≤ cats.length ∧ upIter cats k x = none := by
  by_contra hcon
  push_neg at hcon
  have hmaps : ∀ k ∈ Finset.range (cats.length + 1),
      (upIter cats k x).getD x ∈ cats.toFinset := by
    intro k hk
    rw [Finset.mem_range] at hk
    have hk2 : k ≤ cats.length := Nat.lt_succ_iff.mp hk
    cases hu : upIter cats k x with
    | none => exact absurd hu (hcon k hk2)
    | some d =>
      simp only [Option.getD_some]
      rw [List.mem_toFinset]
      cases k with
      | zero =>
        have hxd : x = d := by simpa [upIter] using hu
        exact hxd ▸ hx
      | succ m => exact upIter_mem hu
  have hcard : cats.toFinset.card < (Finset.range (cats.length + 1)).card := by
    rw [Finset.card_range]
    exact Nat.lt_succ_of_le (List.toFinset_card_le cats)
  obtain ⟨i, hi, j, hj, hne, heq⟩ :=
    Finset.exists_ne_map_eq_of_card_lt_of_maps_to hcard hmaps
  rw [Finset.mem_range] at hi hj
  have key : ∀ i j : Nat, i < j → j ≤ cats.length →
      (upIter cats i x).getD x = (upIter cats j x).getD x → False := by
    intro i j hij hjle hgd
    cases hui : upIter cats i x with
    | none => exact hcon i (le_of_lt (lt_of_lt_of_le hij hjle)) hui
    | some a =>
      cases huj : upIter cats j x with
      | none => exact hcon j hjle huj
      | some b =>
        rw [hui, huj] at hgd
        simp only [Option.getD_some] at hgd
        have hsplit : upIter cats (j - i) a = some b := by
          have hadd := upIter_add cats i (j - i) x
          rw [Nat.add_sub_cancel' (le_of_lt hij), hui, huj] at hadd
          exact hadd.symm
        have hmem : a ∈ cats := by
          cases i with
          | zero =>
            have hxa : x = a := by simpa [upIter] using hui
            exact hxa ▸ hx
          | succ m => exact upIter_mem hui
        have hcyc : upIter cats ((j - i - 1) + 1) a = some a := by
          rw [show (j - i - 1) + 1 = j - i by omega]
          exact hsplit.trans (congrArg some hgd.symm)
        exact hac a hmem (j - i - 1) hcyc
  rcases Nat.lt_or_ge i j with hij | hij
  · exact key i j hij (Nat.lt_succ_iff.mp hj) heq
  · exact key j i (Nat.lt_of_le_of_ne hij (Ne.symm hne))
      (Nat.lt_succ_iff.mp hi) heq.symm

/-- With distinct ids and acyclic parent references, every input category
occurs exactly once in the traversal of the forest `buildCategoryTree`
returns. -/
theorem count_forest_eq_one {cats : List Category} (hn : idsNodup cats)
    (hac : AcyclicParents cats) {x : Category} (hx : x ∈ cats) :
    (forestTraversal cats).count x = 1 := by
  obtain ⟨k0, hk0le, hk0⟩ := upIter_terminates hac hx
  have hex : ∃ m, upIter cats m x = none := ⟨k0, hk0⟩
  have hm : upIter cats (Nat.find hex) x = none := Nat.find_spec hex
  have hmin : ∀ j, j < Nat.find hex → upIter cats j x ≠ none :=
    fun j hj => Nat.find_min hex hj
  have hm1 : 1 ≤ Nat.find hex := by
    rcases Nat.eq_zero_or_pos (Nat.find hex) with h0 | h1
    · rw [h0] at hm
      exact absurd hm (by simp [upIter])
    · exact h1
  have hmle : Nat.find hex ≤ cats.length :=
    le_trans (Nat.find_min' hex hk0) hk0le
  rw [count_forestTraversal hn hx]
  by_cases hme : Nat.find hex = 1
  · have hup : up cats x = none := by
      rw [hme] at hm
      rw [← upIter_one cats x]
      exact hm
    rw [if_pos hup]
    have hz : ∀ k ∈ Finset.range cats.length,
        (if upIter cats (k + 1) x ≠ none ∧ upIter cats (k + 2) x = none
          then 1 else 0) = 0 := by
      intro k _
      rw [if_neg]
      rintro ⟨hne, _⟩
      apply hne
      apply upIter_none_of_le hm
      omega
    rw [Finset.sum_eq_zero hz]
    omega
  · have hm2 : 2 ≤ Nat.find hex := by omega
    have hmemr : Nat.find hex - 2 ∈ Finset.range cats.length := by
      rw [Finset.mem_range]
      omega
    have hup : up cats x ≠ none := by
      rw [← upIter_one cats x]
      exact hmin 1 (by omega)
    rw [if_neg hup]
    have hterm : ∀ k ∈ Finset.range cats.length,
        (if upIter cats (k + 1) x ≠ none ∧ upIter cats (k + 2) x = none
          then 1 else 0)
        = if k = Nat.find hex - 2 then 1 else 0 := by
      intro k _
      apply if_congr _ rfl rfl
      constructor
      · rintro ⟨hne, h0⟩
        have h1 : k + 1 < Nat.find hex := by
          by_contra hcon2
          push_neg at hcon2
          exact hne (upIter_none_of_le hm hcon2)
        have h2 : ¬ (k + 2 < Nat.find hex) := fun hlt => hmin (k + 2) hlt h0
        omega
      · intro hk
        subst hk
        constructor
        · exact hmin (Nat.find hex - 2 + 1) (by omega)
        · rw [show Nat.find hex - 2 + 2 = Nat.find hex by omega]
          exact hm
    rw [Finset.sum_congr rfl hterm,
      Finset.sum_ite_eq' (Finset.range cats.length) (Nat.find hex - 2)
        (fun _ => 1),
      if_pos hmemr]

theorem truthyParent_of_none {c : Category} (h : c.parent_id = none) :
    truthyParent c = none := by
  simp [truthyParent, h]

theorem truthyParent_of_empty {c : Category} (h : c.parent_id = some "") :
    truthyParent c = none := by
  simp [truthyParent, h]

theorem truthyParent_of_some {c : Category} {p : String}
    (h : c.parent_id = some p) (he : p ≠ "") : truthyParent c = some p := by
  simp [truthyParent, h, he]

theorem up_of_truthy_none {cats : List Category} {c : Category}
    (h : truthyParent c = none) : up cats c = none := by
  simp [up, h]

theorem up_of_truthy_some {cats : List Category} {c : Category} {p : String}
    (h : truthyParent c = some p) :
    up cats c = cats.find? (fun d => d.id == p) := by
  simp [up, h]

theorem up_eq_none_iff {cats : List Category} (c : Category) :
    up cats c = none ↔
      c.parent_id = none ∨ c.parent_id = some "" ∨
        ∀ d ∈ cats, c.parent_id ≠ some d.id := by
  cases hp : c.parent_id with
  | none =>
    rw [up_of_truthy_none (truthyParent_of_none hp)]
    simp
  | some p =>
    by_cases he : p = ""
    · subst he
      rw [up_of_truthy_none (truthyParent_of_empty hp)]
      simp
    · rw [up_of_truthy_some (truthyParent_of_some hp he)]
      simp only [List.find?_eq_none, beq_iff_eq, Option.some.injEq]
      constructor
      · intro h
        right; right
        intro d hd heq
        exact h d hd (Option.some.inj heq).symm
      · intro h d hd hdp
        rcases h with h | h | h
        · exact Option.noConfusion h
        · exact he h
        · exact h d hd (congrArg some hdp.symm)

theorem truthyParent_eq_some_iff (d : Category) (i : String) :
    truthyParent d = some i ↔ d.parent_id = some i ∧ i ≠ "" := by
  cases hp : d.parent_id with
  | none =>
    rw [truthyParent_of_none hp]
    simp
  | some p =>
    by_cases he : p = ""
    · subst he
      rw [truthyParent_of_empty hp]
      simp only [Option.some.injEq]
      constructor
      · intro h
        exact absurd h (by simp)
      · rintro ⟨h1, h2⟩
        exact absurd h1.symm h2
    · rw [truthyParent_of_some hp he]
      simp only [Option.some.injEq]
      constructor
      · rintro rfl
        exact ⟨rfl, he⟩
      · rintro ⟨h1, _⟩
        exact h1

/-- Claim C2, counterexample.  With the input
`[{id := "", parent_id := null}, {id := "b", parent_id := ""}]` (distinct
ids), the second category's `parent_id` matches the first category's id, so
the claim says it is not a root and is placed in the first category's
children; but `category.parent_id && ...` is falsy on the empty string, so
the code makes it a root and attaches it to no children list. -/
theorem C2_counterexample :
    idsNodup [cexRootA, cexRootB] ∧
    cexRootB.parent_id = some cexRootA.id ∧
    cexRootB ∈ rootsOf [cexRootA, cexRootB] ∧
    cexRootB ∉ childrenOf [cexRootA, cexRootB] cexRootA.id := by
  refine ⟨?_, rfl, by decide, by decide⟩
  unfold idsNodup
  decide

/-- Claim C2 (amended: the truthiness of `category.parent_id` makes an empty
`parent_id` count as "no parent").  For every input list: the returned
forest's roots are exactly the categories whose `parent_id` is null, empty,
or matches no input id; a category is in the children list of an input
category `c` exactly when its `parent_id` is `c.id` and `c.id` is non-empty;
and on inputs with distinct ids and acyclic `parent_id` references, every
input category appears exactly once in the traversal of the returned
forest. -/
theorem C2_buildCategoryTree (cats : List Category) :
    (∀ c : Category, c ∈ rootsOf cats ↔
      c ∈ cats ∧ (c.parent_id = none ∨ c.parent_id = some "" ∨
        ∀ d ∈ cats, c.parent_id ≠ some d.id)) ∧
    (∀ c d : Category, d ∈ childrenOf cats c.id ↔
      d ∈ cats ∧ d.parent_id = some c.id ∧ c.id ≠ "") ∧
    (idsNodup cats → AcyclicParents cats →
      ∀ x ∈ cats, (forestTraversal cats).count x = 1) := by
  refine ⟨?_, ?_, ?_⟩
  · intro c
    rw [rootsOf_mem, up_eq_none_iff c]
  · intro c d
    rw [childrenOf_mem, truthyParent_eq_some_iff d c.id]
  · intro hn hac x hx
    exact count_forest_eq_one hn hac hx

/-- Witness for `C2_buildCategoryTree`: on the acyclic two-category input
`[catA, catB]` with distinct ids, `catB` (the child) appears exactly once in
the forest traversal. -/
theorem C2_witness : (forestTraversal [catA, catB]).count catB = 1 := by
  have hup1 : up [catA, catB] catA = none := rfl
  have hA : ∀ k : Nat, upIter [catA, catB] (k + 1) catA = none := by
    intro k
    show (match up [catA, catB] catA with
      | some d => upIter [catA, catB] k d
      | none => none) = none
    rw [hup1]
  have hac : AcyclicParents [catA, catB] := by
    intro d hd k
    rcases List.mem_cons.mp hd with rfl | hd2
    · rw [hA k]
      exact fun h => Option.noConfusion h
    · rcases List.mem_cons.mp hd2 with rfl | hd3
      · have hup2 : up [catA, catB] catB = some catA := by decide
        show (match up [catA, catB] catB with
          | some e => upIter [catA, catB] k e
          | none => none) ≠ some catB
        rw [hup2]
        cases k with
        | zero => decide
        | succ m =>
          show upIter [catA, catB] (m + 1) catA ≠ some catB
          rw [hA m]
          exact fun h => Option.noConfusion h
      · cases hd3
  exact (C2_buildCategoryTree [catA, catB]).2.2 (by unfold idsNodup; decide)
    hac catB (by decide)

/-! ### `generateSlug` lemmas -/

theorem slug_not_space {n : Nat} (h : slugOutChar n) : jsIsSpace n = false := by
  unfold slugOutChar at h
  unfold jsIsSpace
  rw [decide_eq_false_iff_not]
  omega

theorem slug_not_sep {n : Nat} (h : slugOutChar n) (h45 : n ≠ 45) :
    sepChar n = false := by
  unfold sepChar
  rw [Bool.or_eq_false_iff, Bool.or_eq_false_iff]
  refine ⟨⟨slug_not_space h, ?_⟩, ?_⟩
  · rw [beq_eq_false_iff_ne]
    unfold slugOutChar at h
    omega
  · rw [beq_eq_false_iff_ne]
    exact h45

theorem slug_keep {n : Nat} (h : slugOutChar n) : keepChar n = true := by
  unfold keepChar jsIsWord
  unfold slugOutChar at h
  rcases h with h | h | h
  · rw [Bool.or_eq_true, Bool.or_eq_true]
    exact Or.inl (Or.inl (by rw [decide_eq_true_iff]; omega))
  · rw [Bool.or_eq_true, Bool.or_eq_true]
    exact Or.inl (Or.inl (by rw [decide_eq_true_iff]; omega))
  · rw [Bool.or_eq_true]
    exact Or.inr (by rw [h]; decide)

theorem slug_lower_fix {n : Nat} (h : slugOutChar n) : jsToLower n = n := by
  unfold jsToLower
  rw [if_neg]
  unfold slugOutChar at h
  omega

theorem jsToLower_not_upper (m : Nat) :
    ¬ (65 ≤ jsToLower m ∧ jsToLower m ≤ 90) := by
  unfold jsToLower
  by_cases h : 65 ≤ m ∧ m ≤ 90
  · rw [if_pos h]; omega
  · rw [if_neg h]; omega

theorem slugOut_of_kept {n : Nat} (hk : keepChar n = true)
    (hs : sepChar n = false) (hu : ¬ (65 ≤ n ∧ n ≤ 90)) : slugOutChar n := by
  simp only [keepChar, jsIsWord, jsIsSpace, Bool.or_eq_true,
    decide_eq_true_eq, beq_iff_eq] at hk
  simp only [sepChar, jsIsSpace, Bool.or_eq_false_iff,
    decide_eq_false_iff_not, beq_eq_false_iff_ne] at hs
  unfold slugOutChar
  omega

theorem dropWhile_eq_self_of_head {p : Nat → Bool} {l : List Nat}
    (h : ∀ n, l.head? = some n → p n = false) : l.dropWhile p = l := by
  cases l with
  | nil => rfl
  | cons a t =>
    rw [List.dropWhile_cons, if_neg]
    rw [h a rfl]
    exact Bool.false_ne_true

theorem head_dropWhile_false {p : Nat → Bool} :
    ∀ (l : List Nat) (n : Nat), (l.dropWhile p).head? = some n → p n = false := by
  intro l
  induction l with
  | nil => intro n h; exact absurd h (by simp [List.dropWhile])
  | cons a t ih =>
    intro n h
    rw [List.dropWhile_cons] at h
    by_cases ha : p a = true
    · rw [if_pos ha] at h
      exact ih n h
    · rw [if_neg ha] at h
      simp only [List.head?_cons, Option.some.injEq] at h
      rw [← h]
      cases hpa : p a with
      | false => rfl
      | true => exact absurd hpa ha

theorem prefix_head_eq {l₁ l₂ : List Nat} (h : l₁ <+: l₂) {n : Nat}
    (hn : l₁.head? = some n) : l₂.head? = some n := by
  rcases h with ⟨t, rfl⟩
  cases l₁ with
  | nil => exact absurd hn (by simp)
  | cons a s => simpa using hn

theorem mem_trimChars {l : List Nat} {n : Nat} (h : n ∈ trimChars l) :
    n ∈ l := by
  unfold trimChars at h
  rw [List.mem_reverse] at h
  have h2 := (List.dropWhile_sublist _).subset h
  rw [List.mem_reverse] at h2
  exact (List.dropWhile_sublist _).subset h2

theorem mem_stripDashes {l : List Nat} {n : Nat} (h : n ∈ stripDashes l) :
    n ∈ l := by
  unfold stripDashes at h
  rw [List.mem_reverse] at h
  have h2 := (List.dropWhile_sublist _).subset h
  rw [List.mem_reverse] at h2
  exact (List.dropWhile_sublist _).subset h2

theorem collapseSeps_cons_nosep {c : Nat} {cs : List Nat}
    (hs : sepChar c = false) :
    collapseSeps (c :: cs) = c :: collapseSeps cs := by
  simp only [collapseSeps]
  rw [if_neg (by rw [hs]; exact Bool.false_ne_true)]

theorem collapseSeps_cons_sep_nil {c : Nat} {cs : List Nat}
    (hs : sepChar c = true) (hr : collapseSeps cs = []) :
    collapseSeps (c :: cs) = [45] := by
  simp only [collapseSeps]
  rw [if_pos hs, hr]

theorem collapseSeps_cons_sep_dash {c d : Nat} {cs ds : List Nat}
    (hs : sepChar c = true) (hr : collapseSeps cs = d :: ds) (hd : d = 45) :
    collapseSeps (c :: cs) = 45 :: ds := by
  simp only [collapseSeps]
  rw [if_pos hs, hr]
  show (if d = 45 then 45 :: ds else 45 :: (d :: ds)) = 45 :: ds
  rw [if_pos hd]

theorem collapseSeps_cons_sep_nodash {c d : Nat} {cs ds : List Nat}
    (hs : sepChar c = true) (hr : collapseSeps cs = d :: ds) (hd : d ≠ 45) :
    collapseSeps (c :: cs) = 45 :: d :: ds := by
  simp only [collapseSeps]
  rw [if_pos hs, hr]
  show (if d = 45 then 45 :: ds else 45 :: (d :: ds)) = 45 :: d :: ds
  rw [if_neg hd]

theorem collapseSeps_mem :
    ∀ l : List Nat, ∀ n ∈ collapseSeps l,
      n = 45 ∨ (n ∈ l ∧ sepChar n = false) := by
  intro l
  induction l with
  | nil => intro n h; exact absurd h (by simp [collapseSeps])
  | cons c cs ih =>
    intro n h
    by_cases hs : sepChar c = true
    · cases hr : collapseSeps cs with
      | nil =>
        rw [collapseSeps_cons_sep_nil hs hr] at h
        left
        exact List.mem_singleton.mp h
      | cons d ds =>
        by_cases hd : d = 45
        · rw [collapseSeps_cons_sep_dash hs hr hd] at h
          rcases List.mem_cons.mp h with rfl | h2
          · left; rfl
          · rcases ih n (by rw [hr]; exact List.mem_cons_of_mem d h2)
              with h3 | h3
            · left; exact h3
            · exact Or.inr ⟨List.mem_cons_of_mem c h3.1, h3.2⟩
        · rw [collapseSeps_cons_sep_nodash hs hr hd] at h
          rcases List.mem_cons.mp h with rfl | h2
          · left; rfl
          · rcases ih n (by rw [hr]; exact h2) with h3 | h3
            · left; exact h3
            · exact Or.inr ⟨List.mem_cons_of_mem c h3.1, h3.2⟩
    · have hs2 : sepChar c = false := by
        cases hb : sepChar c with
        | false => rfl
        | true => exact absurd hb hs
      rw [collapseSeps_cons_nosep hs2] at h
      rcases List.mem_cons.mp h with rfl | h2
      · exact Or.inr ⟨List.mem_cons_self n cs, hs2⟩
      · rcases ih n h2 with h3 | h3
        · left; exact h3
        · exact Or.inr ⟨List.mem_cons_of_mem c h3.1, h3.2⟩

theorem collapseSeps_chain :
    ∀ l : List Nat,
      (collapseSeps l).Chain' (fun a b => ¬(a = 45 ∧ b = 45)) := by
  intro l
  induction l with
  | nil => exact List.chain'_nil
  | cons c cs ih =>
    by_cases hs : sepChar c = true
    · cases hr : collapseSeps cs with
      | nil =>
        rw [collapseSeps_cons_sep_nil hs hr]
        exact List.chain'_singleton 45
      | cons d ds =>
        rw [hr] at ih
        by_cases hd : d = 45
        · rw [collapseSeps_cons_sep_dash hs hr hd]
          rw [hd] at ih
          exact ih
        · rw [collapseSeps_cons_sep_nodash hs hr hd]
          rw [List.chain'_cons]
          exact ⟨fun hc => hd hc.2, ih⟩
    · have hs2 : sepChar c = false := by
        cases hb : sepChar c with
        | false => rfl
        | true => exact absurd hb hs
      rw [collapseSeps_cons_nosep hs2]
      cases hr : collapseSeps cs with
      | nil => exact List.chain'_singleton c
      | cons d ds =>
        rw [List.chain'_cons]
        refine ⟨?_, hr ▸ ih⟩
        rintro ⟨hc45, _⟩
        rw [hc45] at hs2
        exact absurd hs2 (by decide)

theorem collapseSeps_eq_self :
    ∀ l : List Nat, (∀ n ∈ l, slugOutChar n) →
      l.Chain' (fun a b => ¬(a = 45 ∧ b = 45)) → collapseSeps l = l := by
  intro l
  induction l with
  | nil => intro _ _; rfl
  | cons c cs ih =>
    intro hmem hch
    have hcs : collapseSeps cs = cs :=
      ih (fun n hn => hmem n (List.mem_cons_of_mem c hn)) hch.tail
    by_cases hc45 : c = 45
    · subst hc45
      cases cs with
      | nil => rw [collapseSeps_cons_sep_nil (by decide) hcs]
      | cons d ds =>
        have hd : d ≠ 45 := by
          have hcc := (List.chain'_cons.mp hch).1
          exact fun h45 => hcc ⟨rfl, h45⟩
        rw [collapseSeps_cons_sep_nodash (by decide) hcs hd]
    · have hsep : sepChar c = false :=
        slug_not_sep (hmem c (List.mem_cons_self c cs)) hc45
      rw [collapseSeps_cons_nosep hsep, hcs]

theorem stripDashes_head_ne (l : List Nat) :
    ∀ n, (stripDashes l).head? = some n → n ≠ 45 := by
  intro n hn
  unfold stripDashes at hn
  have hpre : ((l.dropWhile (fun m => m == 45)).reverse.dropWhile
        (fun m => m == 45)).reverse
      <+: l.dropWhile (fun m => m == 45) := by
    have hp := List.reverse_prefix.mpr
      (List.dropWhile_suffix (l := (l.dropWhile (fun m => m == 45)).reverse)
        (fun m => m == 45))
    rw [List.reverse_reverse] at hp
    exact hp
  have hx := prefix_head_eq hpre hn
  have hb := head_dropWhile_false l n hx
  rw [beq_eq_false_iff_ne] at hb
  exact hb

theorem stripDashes_last_ne (l : List Nat) :
    ∀ n, (stripDashes l).getLast? = some n → n ≠ 45 := by
  intro n hn
  unfold stripDashes at hn
  rw [← List.head?_reverse, List.reverse_reverse] at hn
  have hb := head_dropWhile_false (l.dropWhile (fun m => m == 45)).reverse n hn
  rw [beq_eq_false_iff_ne] at hb
  exact hb

theorem chain'_of_suffix {l₁ l₂ : List Nat} {R : Nat → Nat → Prop}
    (h : l₁ <:+ l₂) (hc : l₂.Chain' R) : l₁.Chain' R := by
  rcases h with ⟨s, rfl⟩
  exact (List.chain'_append.mp hc).2.1

theorem stripDashes_chain {l : List Nat}
    (hc : l.Chain' (fun a b => ¬(a = 45 ∧ b = 45))) :
    (stripDashes l).Chain' (fun a b => ¬(a = 45 ∧ b = 45)) := by
  unfold stripDashes
  have hX : (l.dropWhile (fun m => m == 45)).Chain'
      (fun a b => ¬(a = 45 ∧ b = 45)) :=
    chain'_of_suffix (List.dropWhile_suffix _) hc
  have hXr : ((l.dropWhile (fun m => m == 45)).reverse).Chain'
      (fun a b => ¬(a = 45 ∧ b = 45)) := by
    rw [List.chain'_reverse]
    exact hX.imp (fun a b hab hc2 => hab ⟨hc2.2, hc2.1⟩)
  have hY : ((l.dropWhile (fun m => m == 45)).reverse.dropWhile
      (fun m => m == 45)).Chain' (fun a b => ¬(a = 45 ∧ b = 45)) :=
    chain'_of_suffix (List.dropWhile_suffix _) hXr
  rw [List.chain'_reverse]
  exact hY.imp (fun a b hab hc2 => hab ⟨hc2.2, hc2.1⟩)

theorem generateSlug_shape (l : List Nat) : SlugShape (generateSlug l) := by
  unfold SlugShape
  refine ⟨?_, ?_, ?_, ?_⟩
  · intro n hn
    unfold generateSlug at hn
    have hD := mem_stripDashes hn
    rcases collapseSeps_mem _ n hD with h45 | ⟨hC, hsep⟩
    · unfold slugOutChar
      right; right; exact h45
    · rw [List.mem_filter] at hC
      have hkeep : keepChar n = true := hC.2
      rcases List.mem_map.mp (mem_trimChars hC.1) with ⟨m, _, rfl⟩
      exact slugOut_of_kept hkeep hsep (jsToLower_not_upper m)
  · unfold generateSlug
    exact stripDashes_chain (collapseSeps_chain _)
  · intro n hn
    rw [Option.mem_def] at hn
    exact stripDashes_head_ne _ n hn
  · intro n hn
    rw [Option.mem_def] at hn
    exact stripDashes_last_ne _ n hn

theorem map_jsToLower_fix :
    ∀ m : List Nat, (∀ n ∈ m, slugOutChar n) → m.map jsToLower = m := by
  intro m
  induction m with
  | nil => intro _; rfl
  | cons a t ih =>
    intro hm
    rw [List.map_cons, slug_lower_fix (hm a (List.mem_cons_self a t)),
      ih (fun n hn => hm n (List.mem_cons_of_mem a hn))]

theorem generateSlug_eq_self {l : List Nat} (h : SlugShape l) :
    generateSlug l = l := by
  obtain ⟨hmem, hch, hhd, hlast⟩ := h
  have h1 : l.map jsToLower = l := map_jsToLower_fix l hmem
  have h2 : trimChars l = l := by
    unfold trimChars
    rw [dropWhile_eq_self_of_head (fun n hn =>
      slug_not_space (hmem n (List.mem_of_mem_head? hn)))]
    rw [dropWhile_eq_self_of_head (fun n hn => by
      rw [List.head?_reverse] at hn
      exact slug_not_space (hmem n
        (List.mem_reverse.mp (List.mem_of_mem_head?
          (by rw [List.head?_reverse]; exact hn)))))]
    rw [List.reverse_reverse]
  have h3 : l.filter keepChar = l :=
    List.filter_eq_self.mpr (fun n hn => slug_keep (hmem n hn))
  have h4 : collapseSeps l = l := collapseSeps_eq_self l hmem hch
  have h5 : stripDashes l = l := by
    unfold stripDashes
    rw [dropWhile_eq_self_of_head (fun n hn =>
      beq_eq_false_iff_ne.mpr (hhd n (Option.mem_def.mpr hn)))]
    rw [dropWhile_eq_self_of_head (fun n hn => by
      rw [List.head?_reverse] at hn
      exact beq_eq_false_iff_ne.mpr (hlast n (Option.mem_def.mpr hn)))]
    rw [List.reverse_reverse]
  unfold generateSlug
  rw [h1, h2, h3, h4, h5]

/-- Claim C10: `generateSlug` is idempotent, and its output consists only of
lowercase word characters and single (non-adjacent) hyphens, with no leading
or trailing hyphen.  Strings are modelled as code-point lists
(`45 = '-'`, `48–57` digits, `97–122` lowercase letters). -/
theorem C10_generateSlug_idempotent (l : List Nat) :
    (∀ n ∈ generateSlug l,
      (97 ≤ n ∧ n ≤ 122) ∨ (48 ≤ n ∧ n ≤ 57) ∨ n = 45) ∧
    (generateSlug l).Chain' (fun a b => ¬(a = 45 ∧ b = 45)) ∧
    (∀ n ∈ (generateSlug l).head?, n ≠ 45) ∧
    (∀ n ∈ (generateSlug l).getLast?, n ≠ 45) ∧
    generateSlug (generateSlug l) = generateSlug l := by
  have h := generateSlug_shape l
  exact ⟨fun n hn => h.1 n hn, h.2.1, h.2.2.1, h.2.2.2,
    generateSlug_eq_self h⟩

/-- Witness for `C10_generateSlug_idempotent`: on the input "He! _0"
(code points `[72, 101, 33, 32, 95, 48]`, slug "he-0"), the code point 104
(`'h'`) of the output is a lowercase letter. -/
theorem C10_witness :
    (97 ≤ 104 ∧ 104 ≤ 122) ∨ (48 ≤ 104 ∧ 104 ≤ 57) ∨ 104 = 45 :=
  (C10_generateSlug_idempotent [72, 101, 33, 32, 95, 48]).1 104 (by decide)

end LemonMind
